import Mathlib

/-!
Shallow embedding of the `plankslaw` notebook (`src/index.ipynb`).

The notebook defines, in its single code cell:
  * physical constants `B = sc.Boltzmann`, `h = sc.h`, `c = sc.c`
    (CODATA/SI exact values `1.380649e-23`, `6.62607015e-34`, `299792458`);
  * a wavelength grid `lamda = np.arange(1e-8, 2e-6, 5e-9)`;
  * `planck(wav, T) = 2*h*c**2 / (wav**5 * (exp(h*c/(wav*B*T)) - 1))`;
  * `maxlamda(T) = (2.898*1e-3)/T`;
  * a rendering callback `g(T)` that plots `planck(lamda, T)`, a vertical
    line at `maxlamda(T)`, and looks up an RGB colour by exact match of
    the integer temperature in a pandas table `temp_to_rgb`;
  * an `IntSlider(min=2100, max=20000, value=3000, step=100)` driving `g`.

NumPy floating point is modelled by exact real arithmetic; fallible
pandas indexing (`.iloc[0]` on an equality-filtered frame) is modelled
by `Option`.
-/

/-- `sc.Boltzmann` from scipy: the Boltzmann constant, J/K. -/
def B : ℝ := 1.380649e-23

/-- `sc.h` from scipy: the Planck constant, J·s. -/
def h : ℝ := 6.62607015e-34

/-- `sc.c` from scipy: the speed of light, m/s. -/
def c : ℝ := 299792458

/-- `planck(wav, T)` from the notebook:
`numerator = 2*h*c**2`, `exponent = np.exp(h*c/(wav*B*T))`,
`denominator = wav**5 * (exponent - 1.0)`, result `numerator/denominator`. -/
noncomputable def planck (wav T : ℝ) : ℝ :=
  (2 * h * c ^ 2) / (wav ^ 5 * (Real.exp (h * c / (wav * B * T)) - 1))

/-- `maxlamda(T)` from the notebook: `(2.898*1e-3)/T` (Wien's law). -/
noncomputable def maxlamda (T : ℝ) : ℝ := (2.898 * 1e-3) / T

/-- The `k`-th element of `np.arange(1e-8, 2e-6, 5e-9)`: start plus `k` steps. -/
def lamdaF (k : ℕ) : ℝ := 1e-8 + 5e-9 * k

/-- `lamda = np.arange(1e-8, 2e-6, 5e-9)`: 398 samples, since
`(2e-6 - 1e-8)/5e-9 = 398` exactly. -/
def lamda : List ℝ := (List.range 398).map lamdaF

/-- The Planck-law radiance formula as written in the spec,
`B(λ, T) = (2·h·c²) / (λ⁵ · (e^(h·c / (λ·k_B·T)) − 1))`,
with the spec's named constant values spelled out. -/
noncomputable def planckSpecFormula (lam T : ℝ) : ℝ :=
  (2 * 6.62607015e-34 * (299792458 : ℝ) ^ 2) /
    (lam ^ 5 * (Real.exp (6.62607015e-34 * 299792458 / (lam * 1.380649e-23 * T)) - 1))

lemma B_pos : (0 : ℝ) < B := by norm_num [B]

lemma h_pos : (0 : ℝ) < h := by norm_num [h]

lemma c_pos : (0 : ℝ) < c := by norm_num [c]

lemma lamdaF_pos (k : ℕ) : 0 < lamdaF k := by
  have : (0 : ℝ) ≤ (k : ℝ) := Nat.cast_nonneg k
  unfold lamdaF
  nlinarith

lemma lamdaF_strictMono : StrictMono lamdaF := by
  intro a b hab
  unfold lamdaF
  have : (a : ℝ) < (b : ℝ) := by exact_mod_cast hab
  nlinarith

/-- For positive wavelength and temperature the exponent in `planck` is positive. -/
lemma planck_exponent_pos {wav T : ℝ} (hw : 0 < wav) (hT : 0 < T) :
    0 < h * c / (wav * B * T) := by
  apply div_pos (mul_pos h_pos c_pos)
  exact mul_pos (mul_pos hw B_pos) hT

/-- For positive wavelength and temperature the denominator of `planck` is positive. -/
lemma planck_denom_pos {wav T : ℝ} (hw : 0 < wav) (hT : 0 < T) :
    0 < wav ^ 5 * (Real.exp (h * c / (wav * B * T)) - 1) := by
  apply mul_pos (pow_pos hw 5)
  have hx := planck_exponent_pos hw hT
  have hexp := Real.add_one_le_exp (h * c / (wav * B * T))
  linarith

/-- C1: for every wavelength `λ > 0` and temperature `T > 0`, `planck λ T`
equals the spec's formula `(2hc²)/(λ⁵(e^(hc/(λ·k_B·T)) − 1))` with
`h = 6.62607015e-34`, `c = 299792458`, and the correct Boltzmann constant
`k_B = 1.380649e-23` — not the notebook documentation's typo value
`1.480649e-23`. -/
theorem planck_matches_spec_formula (lam T : ℝ) (hl : 0 < lam) (hT : 0 < T) :
    planck lam T = planckSpecFormula lam T ∧
      B = 1.380649e-23 ∧ B ≠ 1.480649e-23 := by
  refine ⟨?_, rfl, by norm_num [B]⟩
  unfold planck planckSpecFormula B h c
  norm_num

/-- Witness for C1 at `λ = 1`, `T = 1`. -/
theorem planck_matches_spec_formula_witness :
    planck 1 1 = planckSpecFormula 1 1 ∧
      B = 1.380649e-23 ∧ B ≠ 1.480649e-23 :=
  planck_matches_spec_formula 1 1 (by norm_num) (by norm_num)

/-- C2: for every `T > 0`, `maxlamda T` is exactly `2.898e-3 / T`. -/
theorem maxlamda_eq_wien (T : ℝ) (hT : 0 < T) : maxlamda T = 2.898e-3 / T := by
  unfold maxlamda
  norm_num

/-- Witness for C2 at `T = 2`. -/
theorem maxlamda_eq_wien_witness : maxlamda 2 = 2.898e-3 / 2 :=
  maxlamda_eq_wien 2 (by norm_num)

/-- C4: for every `λ > 0` and `T > 0`, `planck λ T > 0`; in particular the
denominator `λ⁵·(e^(hc/(λ·k_B·T)) − 1)` is strictly positive. -/
theorem planck_pos (lam T : ℝ) (hl : 0 < lam) (hT : 0 < T) :
    0 < planck lam T ∧ 0 < lam ^ 5 * (Real.exp (h * c / (lam * B * T)) - 1) := by
  have hd := planck_denom_pos hl hT
  refine ⟨?_, hd⟩
  unfold planck
  have hnum : 0 < 2 * h * c ^ 2 :=
    mul_pos (mul_pos (by norm_num) h_pos) (pow_pos c_pos 2)
  exact div_pos hnum hd

/-- Witness for C4 at `λ = 1`, `T = 1`. -/
theorem planck_pos_witness :
    0 < planck 1 1 ∧ 0 < (1 : ℝ) ^ 5 * (Real.exp (h * c / (1 * B * 1)) - 1) :=
  planck_pos 1 1 (by norm_num) (by norm_num)

/-- `np.arange` semantics for `np.arange(1e-8, 2e-6, 5e-9)`: the number of
elements is `⌈(stop - start)/step⌉ = ⌈398⌉ = 398`, and element `k` is
`start + k*step`. -/
lemma lamda_mem_iff (x : ℝ) : x ∈ lamda ↔ ∃ k : ℕ, k < 398 ∧ x = lamdaF k := by
  simp only [lamda, List.mem_map, List.mem_range]
  constructor
  · rintro ⟨k, hk, rfl⟩
    exact ⟨k, hk, rfl⟩
  · rintro ⟨k, hk, rfl⟩
    exact ⟨k, hk, rfl⟩

/-- C6: the wavelength sample set `lamda` is the ordered, fixed-step sequence
starting at `1e-8` m (10 nm) with step exactly `5e-9` m (5 nm), strictly
increasing, all samples lying in `[1e-8, 2e-6)`, and one further step past the
final sample reaching exactly `2e-6` m (2000 nm), i.e. it spans the range
10 nm to 2000 nm (exclusive stop, per `np.arange`). -/
theorem lamda_grid_spec :
    lamda = (List.range 398).map lamdaF ∧
    lamdaF 0 = 1e-8 ∧
    (∀ i : ℕ, lamdaF (i + 1) - lamdaF i = 5e-9) ∧
    StrictMono lamdaF ∧
    (∀ x ∈ lamda, 1e-8 ≤ x ∧ x < 2e-6) ∧
    lamdaF 397 + 5e-9 = 2e-6 := by
  refine ⟨rfl, by norm_num [lamdaF], ?_, lamdaF_strictMono, ?_, by norm_num [lamdaF]⟩
  · intro i
    unfold lamdaF
    push_cast
    ring
  · intro x hx
    obtain ⟨k, hk, rfl⟩ := (lamda_mem_iff x).mp hx
    have hk0 : (0 : ℝ) ≤ (k : ℝ) := Nat.cast_nonneg k
    have hk397 : (k : ℝ) ≤ 397 := by exact_mod_cast Nat.lt_succ_iff.mp hk
    unfold lamdaF
    constructor <;> nlinarith

/-- Witness for C6: the first step of the grid and the bounds at sample 5. -/
theorem lamda_grid_spec_witness :
    (lamdaF 1 - lamdaF 0 = 5e-9) ∧ (1e-8 ≤ lamdaF 5 ∧ lamdaF 5 < 2e-6) :=
  ⟨lamda_grid_spec.2.2.1 0,
   lamda_grid_spec.2.2.2.2.1 (lamdaF 5)
     ((lamda_mem_iff (lamdaF 5)).mpr ⟨5, by norm_num, rfl⟩)⟩

/-- The parameters of an `ipywidgets.IntSlider`. -/
structure IntSlider where
  min : ℤ
  max : ℤ
  value : ℤ
  step : ℤ

/-- The temperature slider from the notebook:
`IntSlider(min=2100, max=20000, value=3000, step=100)`. -/
def tempSlider : IntSlider := { min := 2100, max := 20000, value := 3000, step := 100 }

/-- The temperatures reachable through the slider: `min + k*step`, bounded by
`max` (ipywidgets snaps the value to this lattice). -/
def sliderVal (v : ℤ) : Prop :=
  ∃ k : ℕ, v = tempSlider.min + (k : ℤ) * tempSlider.step ∧ v ≤ tempSlider.max

lemma sliderVal_bounds {v : ℤ} (hv : sliderVal v) : 2100 ≤ v ∧ v ≤ 20000 := by
  obtain ⟨k, rfl, hle⟩ := hv
  have : (0 : ℤ) ≤ (k : ℤ) := Int.natCast_nonneg k
  simp only [tempSlider] at *
  omega

lemma sliderVal_of_k {k : ℕ} (hk : k ≤ 179) : sliderVal (2100 + (k : ℤ) * 100) := by
  refine ⟨k, rfl, ?_⟩
  simp only [tempSlider]
  omega

/-- C9: the temperature control is an integer slider with bounds
`[2100, 20000]`, step `100` and default value `3000`; every slider-reachable
temperature is of the form `2100 + 100k` with `k ≤ 179` (hence lies in
`{2100, 2200, …, 20000}` and is a multiple of 100), and the initial value
`3000` is itself reachable. -/
theorem tempSlider_spec :
    tempSlider.min = 2100 ∧ tempSlider.max = 20000 ∧ tempSlider.step = 100 ∧
    tempSlider.value = 3000 ∧ sliderVal tempSlider.value ∧
    (∀ v, sliderVal v ↔ ∃ k : ℕ, k ≤ 179 ∧ v = 2100 + (k : ℤ) * 100) ∧
    (∀ v, sliderVal v → 2100 ≤ v ∧ v ≤ 20000 ∧ (v - 2100) % 100 = 0) := by
  refine ⟨rfl, rfl, rfl, rfl, ⟨9, by norm_num [tempSlider], by norm_num [tempSlider]⟩, ?_, ?_⟩
  · intro v
    constructor
    · rintro ⟨k, rfl, hle⟩
      refine ⟨k, ?_, rfl⟩
      simp only [tempSlider] at hle
      omega
    · rintro ⟨k, hk, rfl⟩
      exact sliderVal_of_k hk
  · intro v hv
    obtain ⟨k, rfl, hle⟩ := hv
    refine ⟨(sliderVal_bounds ⟨k, rfl, hle⟩).1, (sliderVal_bounds ⟨k, rfl, hle⟩).2, ?_⟩
    simp only [tempSlider]
    omega

/-- Witness for C9: the default value 3000 is reachable and satisfies the
bound and step conditions. -/
theorem tempSlider_spec_witness :
    sliderVal 3000 ∧ (2100 ≤ (3000 : ℤ) ∧ (3000 : ℤ) ≤ 20000 ∧ ((3000 : ℤ) - 2100) % 100 = 0) := by
  have hv : sliderVal 3000 :=
    (tempSlider_spec.2.2.2.2.2.1 3000).mpr ⟨9, by norm_num, by norm_num⟩
  exact ⟨hv, tempSlider_spec.2.2.2.2.2.2 3000 hv⟩

/-- C10: for every slider-reachable temperature, the Wien peak wavelength
`maxlamda T` lies strictly inside the sampled wavelength range: strictly
above the first sample `1e-8` and strictly below the last sample
`lamdaF 397 = 1.995e-6`; numerically it lies between `1.449e-7`
(the value at `T = 20000`) and `1.38e-6` (the value at `T = 2100`). -/
theorem maxlamda_inside_sampled_range (v : ℤ) (hv : sliderVal v) :
    1e-8 < maxlamda (v : ℝ) ∧ maxlamda (v : ℝ) < lamdaF 397 ∧
    1.449e-7 ≤ maxlamda (v : ℝ) ∧ maxlamda (v : ℝ) ≤ 1.38e-6 := by
  obtain ⟨hlo, hhi⟩ := sliderVal_bounds hv
  have hloR : (2100 : ℝ) ≤ (v : ℝ) := by exact_mod_cast hlo
  have hhiR : (v : ℝ) ≤ 20000 := by exact_mod_cast hhi
  have hv0 : (0 : ℝ) < (v : ℝ) := by linarith
  unfold maxlamda lamdaF
  refine ⟨?_, ?_, ?_, ?_⟩
  · rw [lt_div_iff hv0]; nlinarith
  · rw [div_lt_iff hv0]; push_cast; nlinarith
  · rw [le_div_iff hv0]; nlinarith
  · rw [div_le_iff hv0]; nlinarith

/-- Witness for C10 at the default temperature 3000. -/
theorem maxlamda_inside_sampled_range_witness :
    1e-8 < maxlamda ((3000 : ℤ) : ℝ) ∧ maxlamda ((3000 : ℤ) : ℝ) < lamdaF 397 ∧
    1.449e-7 ≤ maxlamda ((3000 : ℤ) : ℝ) ∧ maxlamda ((3000 : ℤ) : ℝ) ≤ 1.38e-6 :=
  maxlamda_inside_sampled_range 3000 ⟨9, by norm_num [tempSlider], by norm_num [tempSlider]⟩

/-- An RGB colour triple (one row's `rgb` entry of the colour table). -/
structure Rgb where
  red : ℕ
  green : ℕ
  blue : ℕ
deriving DecidableEq

/-- The colour lookup performed by the callback:
`temp_to_rgb.loc[temp_to_rgb["Temperature"] == T, "rgb"].iloc[0]` —
filter the table rows by exact equality of the `Temperature` column with `T`
and take the `rgb` value of the first matching row.  `.iloc[0]` on an empty
selection raises `IndexError`; that error outcome is modelled as `none`.
The table itself is loaded from an external data file (`temp_to_rgb.data`,
pickled outside the source), so it is a parameter here. -/
def lookupColor (table : List (ℤ × Rgb)) (T : ℤ) : Option Rgb :=
  ((table.filter (fun row => row.1 == T)).head?).map (fun row => row.2)

/-- C5: the colour lookup is an exact-equality match on the integer
temperature with no interpolation: whenever the table has a row matching a
slider-reachable `T` (the external-data contract), the lookup succeeds and
returns exactly one RGB triple; and when no row matches, the lookup is an
error (`none`) rather than a value. -/
theorem lookupColor_spec (table : List (ℤ × Rgb)) (T : ℤ) :
    (sliderVal T → (∃ row ∈ table, row.1 = T) →
      ∃! rgbv, lookupColor table T = some rgbv) ∧
    ((¬ ∃ row ∈ table, row.1 = T) → lookupColor table T = none) := by
  constructor
  · rintro _ ⟨row, hmem, hTeq⟩
    have hmemf : row ∈ table.filter (fun r => r.1 == T) :=
      List.mem_filter.mpr ⟨hmem, by simp [hTeq]⟩
    rcases hhead : (table.filter (fun r => r.1 == T)).head? with _ | fst
    · rw [List.head?_eq_none_iff] at hhead
      rw [hhead] at hmemf
      exact absurd hmemf (List.not_mem_nil row)
    · refine ⟨fst.2, ?_, ?_⟩
      · simp [lookupColor, hhead]
      · intro y hy
        simp [lookupColor, hhead] at hy
        exact hy.symm
  · intro hnone
    have hfil : table.filter (fun r => r.1 == T) = [] := by
      rw [List.filter_eq_nil]
      intro row hmem
      simp only [beq_iff_eq]
      exact fun hTeq => hnone ⟨row, hmem, hTeq⟩
    simp [lookupColor, hfil]

/-- A stand-in colour table satisfying the external-data contract: one row for
each slider-reachable temperature (used only to witness C5). -/
def tbl180 : List (ℤ × Rgb) :=
  ((List.range 180).map (fun k => 2100 + 100 * (k : ℤ))).map
    (fun t => (t, { red := 255, green := 255, blue := 255 }))

set_option maxRecDepth 4000 in
/-- Witness for C5: on a table with a row for every slider temperature the
lookup at the default temperature 3000 succeeds with exactly one triple, and
at an unmatched temperature 1234 it errors. -/
theorem lookupColor_spec_witness :
    (∃! rgbv, lookupColor tbl180 3000 = some rgbv) ∧ lookupColor tbl180 1234 = none :=
  ⟨(lookupColor_spec tbl180 3000).1
      ⟨9, by norm_num [tempSlider], by norm_num [tempSlider]⟩ (by decide),
   (lookupColor_spec tbl180 1234).2 (by decide)⟩

/-- The module-level state the callback `g` can see: the wavelength array
`lamda`, the colour table `temp_to_rgb`, and the matplotlib figure state
(the list of curves drawn so far), which is the only state `g` mutates. -/
structure NbState where
  lam : List ℝ
  table : List (ℤ × Rgb)
  figure : List (List ℝ)

/-- The rendering callback `g(T)` of the notebook: computes the curve
`planck(lamda, T)` over the wavelength array, the peak `maxlamda(T)`, and the
colour `lookupColor` of `T`; it appends the drawn curve to the figure state
and leaves `lamda` and the colour table untouched. -/
noncomputable def g (st : NbState) (T : ℤ) : NbState × (List ℝ × ℝ × Option Rgb) :=
  let curve := st.lam.map (fun wav => planck wav (T : ℝ))
  let peak := maxlamda (T : ℝ)
  let colorval := lookupColor st.table T
  ({ st with figure := st.figure ++ [curve] }, (curve, peak, colorval))

/-- C7: invoking the callback twice with the same temperature produces
numerically identical curve data both times — the curve is a pure function of
`T`, the immutable wavelength array and the colour table, and the callback
mutates neither the wavelength array nor the table (only the figure state). -/
theorem g_idempotent_curve (st : NbState) (T : ℤ) :
    (g ((g st T).1) T).2.1 = (g st T).2.1 ∧
    (g ((g st T).1) T).2 = (g st T).2 ∧
    ((g st T).1).lam = st.lam ∧ ((g st T).1).table = st.table := by
  refine ⟨rfl, rfl, rfl, rfl⟩

/-- Numerator of the `n`-term Taylor partial sum of `exp (p/q)` over the
common denominator `tden q n`. -/
def tnum (p q : ℤ) : ℕ → ℤ
  | 0 => 0
  | n + 1 => n * q * tnum p q n + p ^ n

/-- Common denominator `q^(n-1)·(n-1)!` of the `n`-term Taylor partial sum
of `exp (p/q)`. -/
def tden (q : ℤ) (n : ℕ) : ℤ := q ^ (n - 1) * ((n - 1).factorial : ℤ)

lemma tnum_tden_eq (p q : ℤ) (hq : 0 < q) (n : ℕ) :
    ((tnum p q n : ℤ) : ℝ) / ((tden q n : ℤ) : ℝ)
      = ∑ i ∈ Finset.range n, ((p : ℝ) / (q : ℝ)) ^ i / (Nat.factorial i : ℝ) := by
  have hq0 : (q : ℝ) ≠ 0 := by exact_mod_cast hq.ne'
  induction n with
  | zero => simp [tnum, tden]
  | succ n ih =>
    rcases Nat.eq_zero_or_pos n with rfl | hn
    · simp [tnum, tden]
    · obtain ⟨j, rfl⟩ : ∃ j, n = j + 1 := ⟨n - 1, (Nat.succ_pred_eq_of_pos hn).symm⟩
      rw [Finset.sum_range_succ, ← ih]
      have hfac : ((j + 1).factorial : ℝ) ≠ 0 := by positivity
      have hfac2 : ((j).factorial : ℝ) ≠ 0 := by positivity
      show ((((j+1) : ℕ) * q * tnum p q (j+1) + p ^ (j+1) : ℤ) : ℝ)
            / ((q ^ (j+1) * (((j+1)).factorial : ℤ) : ℤ) : ℝ)
          = ((tnum p q (j+1) : ℤ) : ℝ) / ((q ^ j * ((j).factorial : ℤ) : ℤ) : ℝ)
            + ((p:ℝ)/(q:ℝ)) ^ (j+1) / (((j+1).factorial : ℕ) : ℝ)
      push_cast
      rw [Nat.factorial_succ]
      push_cast
      field_simp
      ring

/-- The Taylor partial sum `tnum/tden` is a lower bound for `exp (p/q)`. -/
lemma tfrac_le_exp (p q : ℤ) (hp : 0 ≤ p) (hq : 0 < q) (n : ℕ) :
    ((tnum p q n : ℤ) : ℝ) / ((tden q n : ℤ) : ℝ) ≤ Real.exp ((p : ℝ) / (q : ℝ)) := by
  rw [tnum_tden_eq p q hq n]
  refine Real.sum_le_exp_of_nonneg ?_ n
  have hp' : (0:ℝ) ≤ (p:ℝ) := by exact_mod_cast hp
  have hq' : (0:ℝ) < (q:ℝ) := by exact_mod_cast hq
  positivity

/-- Integer numerator of a certified upper bound for `exp (p/q)`:
`exp (p/q) = exp (p/(16q))^16`, and the inner factor is bounded by an
11-term Taylor sum plus its Lagrange-style remainder bound. -/
def ubnum (p q : ℤ) : ℤ := (tnum p (16*q) 11 * (16*q) * 121 + p ^ 11 * 12) ^ 16

/-- Denominator matching `ubnum`. -/
def ubden (q : ℤ) : ℤ := ((16*q) ^ 11 * (Nat.factorial 11 : ℤ) * 11) ^ 16

/-- The fraction `ubnum/ubden` is an upper bound for `exp (p/q)` when
`0 ≤ p ≤ 16q`. -/
lemma exp_le_ubfrac (p q : ℤ) (hp : 0 ≤ p) (hq : 0 < q) (hple : p ≤ 16 * q) :
    Real.exp ((p : ℝ) / (q : ℝ)) ≤ ((ubnum p q : ℤ) : ℝ) / ((ubden q : ℤ) : ℝ) := by
  have hq' : (0:ℝ) < (q:ℝ) := by exact_mod_cast hq
  have hp' : (0:ℝ) ≤ (p:ℝ) := by exact_mod_cast hp
  have h16q : (0:ℝ) < 16 * (q:ℝ) := by linarith
  set y : ℝ := (p : ℝ) / (16 * (q : ℝ)) with hy
  have hy0 : 0 ≤ y := by positivity
  have hy1 : y ≤ 1 := by
    rw [hy, div_le_one h16q]
    exact_mod_cast hple
  have hxy : (p : ℝ) / (q : ℝ) = ((16 : ℕ) : ℝ) * y := by
    rw [hy]; push_cast; field_simp; ring
  have hpow : Real.exp ((p : ℝ) / (q : ℝ)) = Real.exp y ^ (16 : ℕ) := by
    rw [hxy, Real.exp_nat_mul]
  have hbound := Real.exp_bound' hy0 hy1 (n := 11) (by norm_num)
  have hsum : (∑ m ∈ Finset.range 11, y ^ m / (Nat.factorial m : ℝ))
      = ((tnum p (16*q) 11 : ℤ) : ℝ) / ((tden (16*q) 11 : ℤ) : ℝ) := by
    rw [tnum_tden_eq p (16*q) (by linarith) 11]
    push_cast
    rw [hy]
  have hden_eq : ((tden (16*q) 11 : ℤ) : ℝ) = (16*(q:ℝ))^10 * (Nat.factorial 10 : ℝ) := by
    show (((16*q) ^ 10 * ((Nat.factorial 10 : ℕ) : ℤ) : ℤ) : ℝ) = _
    push_cast
    ring
  have hinner : (∑ m ∈ Finset.range 11, y ^ m / (Nat.factorial m : ℝ))
        + y ^ 11 * (11 + 1) / ((Nat.factorial 11 : ℝ) * 11)
      = (((tnum p (16*q) 11 * (16*q) * 121 + p ^ 11 * 12) : ℤ) : ℝ)
        / ((((16*q) ^ 11 * (Nat.factorial 11 : ℤ) * 11) : ℤ) : ℝ) := by
    rw [hsum, hden_eq, hy]
    have hf10 : ((Nat.factorial 10 : ℕ) : ℝ) = 3628800 := by norm_num [Nat.factorial]
    have hf11 : ((Nat.factorial 11 : ℕ) : ℝ) = 39916800 := by norm_num [Nat.factorial]
    push_cast [hf10, hf11]
    field_simp
    ring
  have hstep : Real.exp y ≤ (((tnum p (16*q) 11 * (16*q) * 121 + p ^ 11 * 12) : ℤ) : ℝ)
        / ((((16*q) ^ 11 * (Nat.factorial 11 : ℤ) * 11) : ℤ) : ℝ) := by
    rw [← hinner]; exact hbound
  have hpos : (0:ℝ) ≤ Real.exp y := (Real.exp_pos y).le
  calc Real.exp ((p : ℝ) / (q : ℝ)) = Real.exp y ^ (16:ℕ) := hpow
    _ ≤ ((((tnum p (16*q) 11 * (16*q) * 121 + p ^ 11 * 12) : ℤ) : ℝ)
        / ((((16*q) ^ 11 * (Nat.factorial 11 : ℤ) * 11) : ℤ) : ℝ)) ^ (16:ℕ) :=
          pow_le_pow_left hpos hstep 16
    _ = ((ubnum p q : ℤ) : ℝ) / ((ubden q : ℤ) : ℝ) := by
          rw [ubnum, ubden]; push_cast; rw [div_pow]

/-- Integer numerator of `h·c/k_B` (with the SI-exact constant values). -/
def HCN : ℤ := 662607015 * 299792458

/-- Integer denominator of `h·c/k_B`. -/
def HCD : ℤ := 1380649 * 10 ^ 13

/-- Numerator of the exponent `h·c/(λ·k_B·T)` when `λ` is the grid point
`m/(2·10^8)` and `T` is an integer: the exponent is `pArg/(HCD·T·m)`. -/
def pArg : ℤ := HCN * (2 * 10 ^ 8)

/-- Denominator of the exponent at `λ = 5e-7` (grid index 98, `m = 100`)
and `T = 3000`. -/
def d0 : ℤ := HCD * 300000

lemma x0_bridge : h * c / (5e-7 * B * 3000) = (pArg : ℝ) / (d0 : ℝ) := by
  norm_num [h, c, B, pArg, d0, HCN, HCD]

set_option maxRecDepth 10000 in
lemma planck_5e7_3000_lt_1e12 : planck 5e-7 3000 < 1e12 := by
  have hl5 : (0:ℝ) < (5e-7:ℝ) := by norm_num
  have hT3 : (0:ℝ) < (3000:ℝ) := by norm_num
  have hD := planck_denom_pos hl5 hT3
  have hx := tfrac_le_exp pArg d0 (by decide) (by decide) 40
  rw [← x0_bridge] at hx
  have hLDpos : (0:ℝ) < ((tden d0 40 : ℤ) : ℝ) := by
    exact_mod_cast (by decide : (0:ℤ) < tden d0 40)
  have key : (2 * 662607015 * 299792458^2 : ℝ) * ((tden d0 40 : ℤ) : ℝ)
      < 3125 * 10 ^ 19 * (((tnum pArg d0 40 : ℤ) : ℝ) - ((tden d0 40 : ℤ) : ℝ)) := by
    exact_mod_cast (by decide :
      (2 * 662607015 * 299792458^2 : ℤ) * tden d0 40
        < 3125 * 10 ^ 19 * (tnum pArg d0 40 - tden d0 40))
  unfold planck
  rw [div_lt_iff hD]
  have hstep : 2 * h * c ^ 2
      < 1e12 * ((5e-7:ℝ)^5 * (((tnum pArg d0 40 : ℤ) : ℝ) / ((tden d0 40 : ℤ) : ℝ) - 1)) := by
    rw [div_sub_one hLDpos.ne']
    rw [show (1e12:ℝ) * ((5e-7:ℝ)^5 * ((((tnum pArg d0 40 : ℤ):ℝ) - ((tden d0 40 : ℤ):ℝ))
          / ((tden d0 40 : ℤ):ℝ)))
        = (1e12 * (5e-7:ℝ)^5 * (((tnum pArg d0 40 : ℤ):ℝ) - ((tden d0 40 : ℤ):ℝ)))
          / ((tden d0 40 : ℤ):ℝ) from by ring]
    rw [lt_div_iff hLDpos]
    norm_num [h, c]
    linarith
  calc 2 * h * c ^ 2
      < 1e12 * ((5e-7:ℝ)^5 * (((tnum pArg d0 40 : ℤ) : ℝ) / ((tden d0 40 : ℤ) : ℝ) - 1)) := hstep
    _ ≤ 1e12 * ((5e-7:ℝ)^5 * (Real.exp (h * c / (5e-7 * B * 3000)) - 1)) := by
        have h5 : (0:ℝ) < (5e-7:ℝ)^5 := by positivity
        nlinarith [hx, h5]

set_option maxRecDepth 10000 in
lemma planck_5e7_3000_gt_1e11 : 1e11 < planck 5e-7 3000 := by
  have hl5 : (0:ℝ) < (5e-7:ℝ) := by norm_num
  have hT3 : (0:ℝ) < (3000:ℝ) := by norm_num
  have hD := planck_denom_pos hl5 hT3
  have hx := exp_le_ubfrac pArg d0 (by decide) (by decide) (by decide)
  rw [← x0_bridge] at hx
  have hUDpos : (0:ℝ) < ((ubden d0 : ℤ) : ℝ) := by
    exact_mod_cast (by decide : (0:ℤ) < ubden d0)
  have key : 3125 * 10 ^ 18 * (((ubnum pArg d0 : ℤ) : ℝ) - ((ubden d0 : ℤ) : ℝ))
      < (2 * 662607015 * 299792458^2 : ℝ) * ((ubden d0 : ℤ) : ℝ) := by
    exact_mod_cast (by decide :
      (3125 * 10 ^ 18 : ℤ) * (ubnum pArg d0 - ubden d0)
        < (2 * 662607015 * 299792458^2) * ubden d0)
  unfold planck
  rw [lt_div_iff hD]
  have hstep : 1e11 * ((5e-7:ℝ)^5 * (((ubnum pArg d0 : ℤ) : ℝ) / ((ubden d0 : ℤ) : ℝ) - 1))
      < 2 * h * c ^ 2 := by
    rw [div_sub_one hUDpos.ne']
    rw [show (1e11:ℝ) * ((5e-7:ℝ)^5 * ((((ubnum pArg d0 : ℤ):ℝ) - ((ubden d0 : ℤ):ℝ))
          / ((ubden d0 : ℤ):ℝ)))
        = (1e11 * (5e-7:ℝ)^5 * (((ubnum pArg d0 : ℤ):ℝ) - ((ubden d0 : ℤ):ℝ)))
          / ((ubden d0 : ℤ):ℝ) from by ring]
    rw [div_lt_iff hUDpos]
    norm_num [h, c]
    linarith
  calc 1e11 * ((5e-7:ℝ)^5 * (Real.exp (h * c / (5e-7 * B * 3000)) - 1))
      ≤ 1e11 * ((5e-7:ℝ)^5 * (((ubnum pArg d0 : ℤ) : ℝ) / ((ubden d0 : ℤ) : ℝ) - 1)) := by
        have h5 : (0:ℝ) < (5e-7:ℝ)^5 := by positivity
        nlinarith [hx, h5]
    _ < 2 * h * c ^ 2 := hstep

/-- C8 counterexample: at `T = 3000`, the radiance at `λ = 5e-7` m is below
`1e12`, so it is not "roughly on the order of 10¹³" as the claim states (the
true value is ≈ 2.6·10¹¹ W·sr⁻¹·m⁻³). -/
theorem planck_3000_not_order_1e13 : planck 5e-7 3000 < 1e12 :=
  planck_5e7_3000_lt_1e12

/-- C8 (amended): for `T = 3000`, `maxlamda 3000 = 2.898e-3/3000 = 9.66e-7` m
(966 nm), and `planck 5e-7 3000` is finite and roughly on the order of
`10¹¹ W·sr⁻¹·m⁻³` (strictly between `1e11` and `1e12`), the exact value being
derivable from the Planck formula with `h = 6.62607015e-34`, `c = 299792458`,
`k_B = 1.380649e-23`. -/
theorem planck_3000_concrete :
    maxlamda 3000 = 9.66e-7 ∧ 1e11 < planck 5e-7 3000 ∧ planck 5e-7 3000 < 1e12 :=
  ⟨by norm_num [maxlamda], planck_5e7_3000_gt_1e11, planck_5e7_3000_lt_1e12⟩

/-- Sign function of the derivative of the `planck` denominator after the
substitution `x = (h·c/(k_B·T))/λ`: the denominator `λ⁵(e^x − 1)` has
`λ`-derivative `λ⁴·wienAux x`. -/
noncomputable def wienAux (x : ℝ) : ℝ := 5 * (Real.exp x - 1) - x * Real.exp x

lemma wienAux_hasDeriv (x : ℝ) : HasDerivAt wienAux ((4 - x) * Real.exp x) x := by
  have he : HasDerivAt Real.exp (Real.exp x) x := Real.hasDerivAt_exp x
  have h1 : HasDerivAt (fun y => 5 * (Real.exp y - 1)) (5 * Real.exp x) x :=
    (he.sub_const 1).const_mul 5
  have h2 : HasDerivAt (fun y => y * Real.exp y) (1 * Real.exp x + x * Real.exp x) x :=
    (hasDerivAt_id x).mul he
  have h3 := h1.sub h2
  convert h3 using 1
  ring

lemma wienAux_cont : Continuous wienAux := by
  unfold wienAux
  fun_prop

lemma wienAux_strictMonoOn : StrictMonoOn wienAux (Set.Icc (0:ℝ) 4) := by
  apply strictMonoOn_of_deriv_pos (convex_Icc 0 4) wienAux_cont.continuousOn
  intro x hx
  rw [interior_Icc] at hx
  rw [(wienAux_hasDeriv x).deriv]
  have := Real.exp_pos x
  nlinarith [hx.1, hx.2]

lemma wienAux_antitoneOn : AntitoneOn wienAux (Set.Ici (4:ℝ)) := by
  apply antitoneOn_of_deriv_nonpos (convex_Ici 4) wienAux_cont.continuousOn
  · intro x _
    exact (wienAux_hasDeriv x).differentiableAt.differentiableWithinAt
  · intro x hx
    rw [interior_Ici] at hx
    rw [Set.mem_Ioi] at hx
    rw [(wienAux_hasDeriv x).deriv]
    have h1 := Real.exp_pos x
    nlinarith [mul_nonneg (by linarith : (0:ℝ) ≤ x - 4) h1.le]

/-- Rational lower end of the bracket for the positive root of `wienAux`. -/
def xloR : ℝ := 4.9648

/-- Rational upper end of the bracket for the positive root of `wienAux`. -/
def xhiR : ℝ := 4.9655

set_option maxRecDepth 4000 in
lemma wienAux_xlo_pos : 0 < wienAux xloR := by
  have harg : (((49648:ℤ)):ℝ) / (((10000:ℤ)):ℝ) = (4.9648:ℝ) := by norm_num
  have hE := tfrac_le_exp 49648 10000 (by decide) (by decide) 30
  rw [harg] at hE
  have hLD : (0:ℝ) < ((tden 10000 30 : ℤ):ℝ) := by
    exact_mod_cast (by decide : (0:ℤ) < tden 10000 30)
  have key : (50000:ℝ) * ((tden 10000 30 : ℤ):ℝ) < 352 * ((tnum 49648 10000 30 : ℤ):ℝ) := by
    exact_mod_cast (by decide : (50000:ℤ) * tden 10000 30 < 352 * tnum 49648 10000 30)
  have hQ : (5:ℝ) < 0.0352 * (((tnum 49648 10000 30 : ℤ):ℝ) / ((tden 10000 30 : ℤ):ℝ)) := by
    rw [← mul_div_assoc, lt_div_iff hLD]
    linarith
  unfold wienAux xloR
  linarith

set_option maxRecDepth 4000 in
lemma wienAux_xhi_neg : wienAux xhiR < 0 := by
  have harg : (((49655:ℤ)):ℝ) / (((10000:ℤ)):ℝ) = (4.9655:ℝ) := by norm_num
  have hE := exp_le_ubfrac 49655 10000 (by decide) (by decide) (by decide)
  rw [harg] at hE
  have hUD : (0:ℝ) < ((ubden 10000 : ℤ):ℝ) := by
    exact_mod_cast (by decide : (0:ℤ) < ubden 10000)
  have key : (345:ℝ) * ((ubnum 49655 10000 : ℤ):ℝ) < 50000 * ((ubden 10000 : ℤ):ℝ) := by
    exact_mod_cast (by decide : (345:ℤ) * ubnum 49655 10000 < 50000 * ubden 10000)
  have hQ : 0.0345 * (((ubnum 49655 10000 : ℤ):ℝ) / ((ubden 10000 : ℤ):ℝ)) < 5 := by
    rw [← mul_div_assoc, div_lt_iff hUD]
    linarith
  unfold wienAux xhiR
  linarith

lemma wienAux_pos_of {x : ℝ} (hx0 : 0 < x) (hxle : x ≤ xloR) : 0 < wienAux x := by
  rcases le_or_lt x 4 with hc4 | hc4
  · have h0 : wienAux 0 = 0 := by simp [wienAux]
    have hlt := wienAux_strictMonoOn (Set.mem_Icc.mpr ⟨le_refl 0, by norm_num⟩)
      (Set.mem_Icc.mpr ⟨hx0.le, hc4⟩) hx0
    rw [h0] at hlt
    exact hlt
  · have hmono := wienAux_antitoneOn (Set.mem_Ici.mpr hc4.le)
      (Set.mem_Ici.mpr (by unfold xloR; linarith : (4:ℝ) ≤ xloR)) hxle
    linarith [wienAux_xlo_pos]

lemma wienAux_neg_of {x : ℝ} (hx : xhiR ≤ x) : wienAux x < 0 := by
  have h4 : (4:ℝ) ≤ xhiR := by unfold xhiR; norm_num
  have hmono := wienAux_antitoneOn (Set.mem_Ici.mpr h4) (Set.mem_Ici.mpr (h4.trans hx)) hx
  linarith [wienAux_xhi_neg]

/-- The denominator of `planck`, as a function of the wavelength. -/
noncomputable def denomF (T w : ℝ) : ℝ := w ^ 5 * (Real.exp (h * c / (w * B * T)) - 1)

lemma planck_eq_denomF (wav T : ℝ) : planck wav T = (2 * h * c ^ 2) / denomF T wav := rfl

lemma denomF_hasDeriv (T : ℝ) (hT : 0 < T) {w : ℝ} (hw : 0 < w) :
    HasDerivAt (denomF T) (w ^ 4 * wienAux (h * c / (B * T) / w)) w := by
  have hBT : B * T ≠ 0 := (mul_pos B_pos hT).ne'
  have hfun : denomF T = fun x => x ^ 5 * (Real.exp (h * c / (B * T) * x⁻¹) - 1) := by
    funext x
    unfold denomF
    rcases eq_or_ne x 0 with rfl | hx
    · simp
    · have hcomm : x * B * T = B * T * x := by ring
      rw [hcomm, ← div_div, div_eq_mul_inv]
  rw [hfun]
  have hinv : HasDerivAt (fun x : ℝ => h * c / (B * T) * x⁻¹)
      (h * c / (B * T) * (-(w ^ 2)⁻¹)) w := (hasDerivAt_inv hw.ne').const_mul _
  have hexp := hinv.exp
  have hpow : HasDerivAt (fun x : ℝ => x ^ 5) (5 * w ^ 4) w := by
    simpa using hasDerivAt_pow 5 w
  have hmul := hpow.mul (hexp.sub_const 1)
  convert hmul using 1
  unfold wienAux
  rw [show h * c / (B * T) / w = h * c / (B * T) * w⁻¹ from div_eq_mul_inv _ _]
  have hw0 : w ≠ 0 := hw.ne'
  field_simp
  ring

/-- Strict monotonicity of `planck` in the wavelength, below the peak:
if `w2·xhiR ≤ h·c/(k_B·T)` then the exponent substitute stays above the
root of `wienAux` on `[w1, w2]`, the denominator is strictly decreasing,
and the radiance strictly increasing. -/
lemma planck_lt_of_left (T : ℝ) (hT : 0 < T) {w1 w2 : ℝ} (hw1 : 0 < w1) (h12 : w1 < w2)
    (hhi : w2 * xhiR ≤ h * c / (B * T)) : planck w1 T < planck w2 T := by
  have hxhi0 : (0:ℝ) < xhiR := by unfold xhiR; norm_num
  have hanti : StrictAntiOn (denomF T) (Set.Icc w1 w2) := by
    apply strictAntiOn_of_deriv_neg (convex_Icc w1 w2)
    · intro x hx
      exact (denomF_hasDeriv T hT (hw1.trans_le hx.1)).continuousAt.continuousWithinAt
    · intro x hx
      rw [interior_Icc] at hx
      have hx0 : 0 < x := hw1.trans hx.1
      rw [(denomF_hasDeriv T hT hx0).deriv]
      have harg : xhiR ≤ h * c / (B * T) / x := by
        rw [le_div_iff hx0]
        calc xhiR * x ≤ xhiR * w2 := by nlinarith [hx.2]
          _ = w2 * xhiR := by ring
          _ ≤ h * c / (B * T) := hhi
      have hneg := wienAux_neg_of harg
      have hx4 : (0:ℝ) < x ^ 4 := by positivity
      nlinarith
  have hdlt : denomF T w2 < denomF T w1 :=
    hanti (Set.left_mem_Icc.mpr h12.le) (Set.right_mem_Icc.mpr h12.le) h12
  have hd2 : 0 < denomF T w2 := planck_denom_pos (hw1.trans h12) hT
  rw [planck_eq_denomF, planck_eq_denomF]
  exact div_lt_div_of_pos_left
    (mul_pos (mul_pos (by norm_num) h_pos) (pow_pos c_pos 2)) hd2 hdlt

/-- Strict antitonicity of `planck` in the wavelength, beyond the peak:
if `h·c/(k_B·T) ≤ w1·xloR` then the exponent substitute stays below the
root of `wienAux` on `[w1, w2]`, the denominator is strictly increasing,
and the radiance strictly decreasing. -/
lemma planck_lt_of_right (T : ℝ) (hT : 0 < T) {w1 w2 : ℝ} (hw1 : 0 < w1) (h12 : w1 < w2)
    (hlo : h * c / (B * T) ≤ w1 * xloR) : planck w2 T < planck w1 T := by
  have hxlo0 : (0:ℝ) < xloR := by unfold xloR; norm_num
  have hK : 0 < h * c / (B * T) := div_pos (mul_pos h_pos c_pos) (mul_pos B_pos hT)
  have hmono : StrictMonoOn (denomF T) (Set.Icc w1 w2) := by
    apply strictMonoOn_of_deriv_pos (convex_Icc w1 w2)
    · intro x hx
      exact (denomF_hasDeriv T hT (hw1.trans_le hx.1)).continuousAt.continuousWithinAt
    · intro x hx
      rw [interior_Icc] at hx
      have hx0 : 0 < x := hw1.trans hx.1
      rw [(denomF_hasDeriv T hT hx0).deriv]
      have harg : h * c / (B * T) / x ≤ xloR := by
        rw [div_le_iff hx0]
        calc h * c / (B * T) ≤ w1 * xloR := hlo
          _ ≤ x * xloR := by nlinarith [hx.1]
          _ = xloR * x := by ring
      have hargpos : 0 < h * c / (B * T) / x := div_pos hK hx0
      have hpos := wienAux_pos_of hargpos harg
      have hx4 : (0:ℝ) < x ^ 4 := by positivity
      nlinarith
  have hdlt : denomF T w1 < denomF T w2 :=
    hmono (Set.left_mem_Icc.mpr h12.le) (Set.right_mem_Icc.mpr h12.le) h12
  have hd1 : 0 < denomF T w1 := planck_denom_pos hw1 hT
  rw [planck_eq_denomF, planck_eq_denomF]
  exact div_lt_div_of_pos_left
    (mul_pos (mul_pos (by norm_num) h_pos) (pow_pos c_pos 2)) hd1 hdlt

/-- Integer numerator of the grid sample `lamdaF i = (2+i)/(2·10^8)`. -/
def sTnum (i : ℕ) : ℤ := 2 + i

/-- The `k`-th slider temperature `2100 + 100k` as an integer. -/
def tempZ (k : ℕ) : ℤ := 2100 + 100 * k

/-- Denominator of the exponent `h·c/(λ·k_B·T) = pArg/dArg` at grid sample `i`
and slider temperature index `k`. -/
def dArg (i k : ℕ) : ℤ := HCD * tempZ k * sTnum i

/-- Index of the last grid sample below the Planck peak at slider
temperature index `k` (validated a posteriori by `chk`). -/
def idx (k : ℕ) : ℕ := ((2 * 10 ^ 12 * HCN) / (49655 * HCD * tempZ k)).toNat - 2

lemma tempZ_pos (k : ℕ) : (0:ℤ) < tempZ k := by unfold tempZ; positivity

lemma tempZR_pos (k : ℕ) : (0:ℝ) < ((tempZ k : ℤ):ℝ) := by exact_mod_cast tempZ_pos k

lemma sTnum_pos (i : ℕ) : (0:ℤ) < sTnum i := by unfold sTnum; positivity

lemma sTnumR_pos (i : ℕ) : (0:ℝ) < ((sTnum i : ℤ):ℝ) := by exact_mod_cast sTnum_pos i

lemma HCD_pos : (0:ℤ) < HCD := by decide

lemma pArg_nonneg : (0:ℤ) ≤ pArg := by decide

lemma dArg_pos (i k : ℕ) : 0 < dArg i k :=
  mul_pos (mul_pos HCD_pos (tempZ_pos k)) (sTnum_pos i)

lemma tden_pos {q : ℤ} (hq : 0 < q) (n : ℕ) : 0 < tden q n := by
  unfold tden
  exact mul_pos (pow_pos hq _) (by exact_mod_cast (n-1).factorial_pos)

lemma ubden_pos {q : ℤ} (hq : 0 < q) : 0 < ubden q := by
  unfold ubden
  have h16 : (0:ℤ) < 16 * q := by linarith
  have hf : (0:ℤ) < (Nat.factorial 11 : ℤ) := by decide
  exact pow_pos (mul_pos (mul_pos (pow_pos h16 11) hf) (by norm_num)) 16

lemma lamdaF_eq_sTnum (i : ℕ) : lamdaF i = ((sTnum i : ℤ):ℝ) / (2 * 10 ^ 8) := by
  unfold lamdaF sTnum
  push_cast
  field_simp
  ring

lemma K_eq (k : ℕ) : h * c / (B * ((tempZ k : ℤ):ℝ))
    = (HCN:ℝ) / ((HCD:ℝ) * ((tempZ k : ℤ):ℝ)) := by
  have h1 : h * c / B = (HCN:ℝ)/(HCD:ℝ) := by norm_num [h, c, B, HCN, HCD]
  rw [← div_div, h1, div_div]

lemma exparg_eq (i k : ℕ) :
    h * c / (lamdaF i * B * ((tempZ k : ℤ):ℝ)) = (pArg:ℝ) / ((dArg i k : ℤ):ℝ) := by
  have hTR := tempZR_pos k
  have hS := sTnumR_pos i
  have hden1 : lamdaF i * B * ((tempZ k : ℤ):ℝ) ≠ 0 :=
    (mul_pos (mul_pos (lamdaF_pos i) B_pos) hTR).ne'
  have hden2 : ((dArg i k : ℤ):ℝ) ≠ 0 := by
    exact_mod_cast (dArg_pos i k).ne'
  rw [div_eq_div_iff hden1 hden2, lamdaF_eq_sTnum i]
  unfold dArg pArg HCN HCD
  push_cast
  norm_num [h, c, B]
  ring

/-- Certified strict comparison of `planck` at two grid samples: the winner
`iW` gets the 16th-power upper exponential bound, the loser `iL` the Taylor
lower bound; the integer inequality `hcmp` then forces
`planck (lamdaF iL) < planck (lamdaF iW)`. -/
lemma planck_cross (iW iL k : ℕ)
    (hq16 : pArg ≤ 16 * dArg iW k)
    (hcmp : sTnum iW ^ 5 * (ubnum pArg (dArg iW k) - ubden (dArg iW k)) * tden (dArg iL k) 25
          < sTnum iL ^ 5 * (tnum pArg (dArg iL k) 25 - tden (dArg iL k) 25) * ubden (dArg iW k)) :
    planck (lamdaF iL) ((tempZ k : ℤ):ℝ) < planck (lamdaF iW) ((tempZ k : ℤ):ℝ) := by
  have hTR := tempZR_pos k
  have hUB := exp_le_ubfrac pArg (dArg iW k) pArg_nonneg (dArg_pos iW k) hq16
  have hLB := tfrac_le_exp pArg (dArg iL k) pArg_nonneg (dArg_pos iL k) 25
  rw [← exparg_eq iW k] at hUB
  rw [← exparg_eq iL k] at hLB
  have hUDpos : (0:ℝ) < ((ubden (dArg iW k) : ℤ):ℝ) := by
    exact_mod_cast ubden_pos (dArg_pos iW k)
  have hLDpos : (0:ℝ) < ((tden (dArg iL k) 25 : ℤ):ℝ) := by
    exact_mod_cast tden_pos (dArg_pos iL k) 25
  have hcmpR : ((sTnum iW : ℤ):ℝ) ^ 5
        * (((ubnum pArg (dArg iW k) : ℤ):ℝ) - ((ubden (dArg iW k) : ℤ):ℝ))
        * ((tden (dArg iL k) 25 : ℤ):ℝ)
      < ((sTnum iL : ℤ):ℝ) ^ 5
        * (((tnum pArg (dArg iL k) 25 : ℤ):ℝ) - ((tden (dArg iL k) 25 : ℤ):ℝ))
        * ((ubden (dArg iW k) : ℤ):ℝ) := by
    exact_mod_cast hcmp
  have hkey : lamdaF iW ^ 5 * (((ubnum pArg (dArg iW k) : ℤ):ℝ)/((ubden (dArg iW k) : ℤ):ℝ) - 1)
      < lamdaF iL ^ 5 * (((tnum pArg (dArg iL k) 25 : ℤ):ℝ)/((tden (dArg iL k) 25 : ℤ):ℝ) - 1) := by
    rw [lamdaF_eq_sTnum iW, lamdaF_eq_sTnum iL, div_pow, div_pow,
      div_sub_one hUDpos.ne', div_sub_one hLDpos.ne',
      div_mul_div_comm, div_mul_div_comm,
      div_lt_div_iff (by positivity) (by positivity)]
    nlinarith [hcmpR, pow_pos (sTnumR_pos iW) 5, pow_pos (sTnumR_pos iL) 5]
  have hWub : denomF ((tempZ k : ℤ):ℝ) (lamdaF iW)
      ≤ lamdaF iW ^ 5 * (((ubnum pArg (dArg iW k) : ℤ):ℝ)/((ubden (dArg iW k) : ℤ):ℝ) - 1) := by
    unfold denomF
    have := pow_nonneg (lamdaF_pos iW).le 5
    nlinarith [hUB]
  have hLlb : lamdaF iL ^ 5 * (((tnum pArg (dArg iL k) 25 : ℤ):ℝ)/((tden (dArg iL k) 25 : ℤ):ℝ) - 1)
      ≤ denomF ((tempZ k : ℤ):ℝ) (lamdaF iL) := by
    unfold denomF
    have := pow_nonneg (lamdaF_pos iL).le 5
    nlinarith [hLB]
  have hd_W : 0 < denomF ((tempZ k : ℤ):ℝ) (lamdaF iW) :=
    planck_denom_pos (lamdaF_pos iW) hTR
  have hdd : denomF ((tempZ k : ℤ):ℝ) (lamdaF iW) < denomF ((tempZ k : ℤ):ℝ) (lamdaF iL) := by
    linarith
  rw [planck_eq_denomF, planck_eq_denomF]
  exact div_lt_div_of_pos_left
    (mul_pos (mul_pos (by norm_num) h_pos) (pow_pos c_pos 2)) hd_W hdd

/-- Per-temperature certificate: bracketing of the Planck peak between grid
samples `idx k` and `idx k + 1`, location of Wien's `maxlamda` within one
grid step of both, validity bound for the exponential upper bound, and a
strict winner among the two straddling samples. -/
def chk (k : ℕ) : Bool :=
  decide (1 ≤ idx k) && decide (idx k ≤ 396) &&
  decide (sTnum (idx k) * 49655 * HCD * tempZ k ≤ 2 * 10 ^ 12 * HCN) &&
  decide (2 * 10 ^ 12 * HCN ≤ sTnum (idx k + 1) * 49648 * HCD * tempZ k) &&
  decide (sTnum (idx k + 1) * tempZ k ≤ 579600 + tempZ k) &&
  decide (579600 ≤ sTnum (idx k + 1) * tempZ k) &&
  decide (sTnum (idx k) * tempZ k ≤ 579600) &&
  decide (pArg ≤ 16 * dArg (idx k) k) &&
  (decide (sTnum (idx k + 1) ^ 5
        * (ubnum pArg (dArg (idx k + 1) k) - ubden (dArg (idx k + 1) k))
        * tden (dArg (idx k) k) 25
      < sTnum (idx k) ^ 5
        * (tnum pArg (dArg (idx k) k) 25 - tden (dArg (idx k) k) 25)
        * ubden (dArg (idx k + 1) k)) ||
   decide (sTnum (idx k) ^ 5
        * (ubnum pArg (dArg (idx k) k) - ubden (dArg (idx k) k))
        * tden (dArg (idx k + 1) k) 25
      < sTnum (idx k + 1) ^ 5
        * (tnum pArg (dArg (idx k + 1) k) 25 - tden (dArg (idx k + 1) k) 25)
        * ubden (dArg (idx k) k)))

set_option maxRecDepth 40000 in
lemma chk_all : ((List.range 180).all chk) = true := by decide

lemma HCDR_pos : (0:ℝ) < (HCD:ℝ) := by exact_mod_cast HCD_pos

lemma sTnum_succ_cast (i : ℕ) : ((sTnum (i + 1) : ℤ):ℝ) = ((sTnum i : ℤ):ℝ) + 1 := by
  unfold sTnum
  push_cast
  ring

set_option maxHeartbeats 1600000 in
/-- C3: for every slider-reachable temperature, the Planck radiance restricted
to the sampled wavelength grid is strictly increasing before the peak and
strictly decreasing beyond it: there is an index `m` such that the sampled
curve strictly increases up to `m`, strictly decreases after `m`, `m` is the
unique maximum of the sampled curve, and the maximising sample lies within one
sample step (`5e-9` m = 5 nm) of `maxlamda T`. -/
theorem planck_unimodal_on_grid (v : ℤ) (hv : sliderVal v) :
    ∃ m : ℕ, m ≤ 397 ∧
      (∀ a b : ℕ, a < b → b ≤ m →
        planck (lamdaF a) (v : ℝ) < planck (lamdaF b) (v : ℝ)) ∧
      (∀ a b : ℕ, m ≤ a → a < b → b ≤ 397 →
        planck (lamdaF b) (v : ℝ) < planck (lamdaF a) (v : ℝ)) ∧
      (∀ m' : ℕ, m' ≤ 397 →
        (∀ j : ℕ, j ≤ 397 → planck (lamdaF j) (v : ℝ) ≤ planck (lamdaF m') (v : ℝ)) →
        m' = m) ∧
      |lamdaF m - maxlamda (v : ℝ)| ≤ 5e-9 := by
  obtain ⟨k, hveq, hvle⟩ := hv
  have hk179 : k ≤ 179 := by
    simp only [tempSlider] at hveq hvle
    omega
  have hTcast : ((v : ℤ) : ℝ) = ((tempZ k : ℤ) : ℝ) := by
    rw [hveq]
    simp only [tempSlider]
    unfold tempZ
    push_cast
    ring
  rw [hTcast]
  have hchk : chk k = true :=
    List.all_eq_true.mp chk_all k (List.mem_range.mpr (by omega))
  unfold chk at hchk
  simp only [Bool.and_eq_true, Bool.or_eq_true, decide_eq_true_eq] at hchk
  obtain ⟨⟨⟨⟨⟨⟨⟨⟨h1le, h396⟩, hb2⟩, hb3⟩, hb4⟩, hb5⟩, hb7⟩, hb8⟩, hor⟩ := hchk
  have hTR : (0:ℝ) < ((tempZ k : ℤ):ℝ) := tempZR_pos k
  have hb2R : ((sTnum (idx k) : ℤ):ℝ) * 49655 * (HCD:ℝ) * ((tempZ k : ℤ):ℝ)
      ≤ 2 * 10^12 * (HCN:ℝ) := by exact_mod_cast hb2
  have hb3R : 2 * 10^12 * (HCN:ℝ)
      ≤ ((sTnum (idx k + 1) : ℤ):ℝ) * 49648 * (HCD:ℝ) * ((tempZ k : ℤ):ℝ) := by
    exact_mod_cast hb3
  have hb4R : ((sTnum (idx k + 1) : ℤ):ℝ) * ((tempZ k : ℤ):ℝ)
      ≤ 579600 + ((tempZ k : ℤ):ℝ) := by exact_mod_cast hb4
  have hb5R : (579600:ℝ) ≤ ((sTnum (idx k + 1) : ℤ):ℝ) * ((tempZ k : ℤ):ℝ) := by
    exact_mod_cast hb5
  have hb7R : ((sTnum (idx k) : ℤ):ℝ) * ((tempZ k : ℤ):ℝ) ≤ (579600:ℝ) := by
    exact_mod_cast hb7
  have hhiK : lamdaF (idx k) * xhiR ≤ h * c / (B * ((tempZ k : ℤ):ℝ)) := by
    rw [K_eq k, lamdaF_eq_sTnum, div_mul_eq_mul_div,
      div_le_div_iff (by norm_num) (mul_pos HCDR_pos hTR)]
    unfold xhiR
    nlinarith [hb2R]
  have hloK : h * c / (B * ((tempZ k : ℤ):ℝ)) ≤ lamdaF (idx k + 1) * xloR := by
    rw [K_eq k, lamdaF_eq_sTnum, div_mul_eq_mul_div,
      div_le_div_iff (mul_pos HCDR_pos hTR) (by norm_num)]
    unfold xloR
    nlinarith [hb3R]
  have inc : ∀ a b : ℕ, a < b → b ≤ idx k →
      planck (lamdaF a) ((tempZ k : ℤ):ℝ) < planck (lamdaF b) ((tempZ k : ℤ):ℝ) := by
    intro a b hab hbi
    apply planck_lt_of_left _ hTR (lamdaF_pos a) (lamdaF_strictMono hab)
    have hmono : lamdaF b ≤ lamdaF (idx k) := lamdaF_strictMono.monotone hbi
    have hxhi : (0:ℝ) < xhiR := by unfold xhiR; norm_num
    nlinarith [hhiK]
  have dec : ∀ a b : ℕ, idx k + 1 ≤ a → a < b →
      planck (lamdaF b) ((tempZ k : ℤ):ℝ) < planck (lamdaF a) ((tempZ k : ℤ):ℝ) := by
    intro a b hia hab
    apply planck_lt_of_right _ hTR (lamdaF_pos a) (lamdaF_strictMono hab)
    have hmono : lamdaF (idx k + 1) ≤ lamdaF a := lamdaF_strictMono.monotone hia
    have hxlo : (0:ℝ) < xloR := by unfold xloR; norm_num
    nlinarith [hloK]
  have hmax_eq : maxlamda ((tempZ k : ℤ):ℝ) = 579600 / (2*10^8 * ((tempZ k : ℤ):ℝ)) := by
    unfold maxlamda
    rw [div_eq_div_iff hTR.ne' (by positivity)]
    ring_nf
  have hdenpos : (0:ℝ) < 2*10^8 * ((tempZ k : ℤ):ℝ) := by positivity
  have hlocR : |lamdaF (idx k + 1) - maxlamda ((tempZ k : ℤ):ℝ)| ≤ 5e-9 := by
    have hdiff : lamdaF (idx k + 1) - maxlamda ((tempZ k : ℤ):ℝ)
        = (((sTnum (idx k + 1) : ℤ):ℝ) * ((tempZ k : ℤ):ℝ) - 579600)
          / (2*10^8 * ((tempZ k : ℤ):ℝ)) := by
      rw [hmax_eq, lamdaF_eq_sTnum]
      field_simp
      ring
    rw [hdiff, abs_div, abs_of_pos hdenpos, div_le_iff hdenpos]
    have habs : |((sTnum (idx k + 1) : ℤ):ℝ) * ((tempZ k : ℤ):ℝ) - 579600|
        ≤ ((tempZ k : ℤ):ℝ) := abs_le.mpr ⟨by linarith, by linarith⟩
    calc |((sTnum (idx k + 1) : ℤ):ℝ) * ((tempZ k : ℤ):ℝ) - 579600|
        ≤ ((tempZ k : ℤ):ℝ) := habs
      _ = 5e-9 * (2*10^8 * ((tempZ k : ℤ):ℝ)) := by ring_nf
  have hlocL : |lamdaF (idx k) - maxlamda ((tempZ k : ℤ):ℝ)| ≤ 5e-9 := by
    have hdiff : lamdaF (idx k) - maxlamda ((tempZ k : ℤ):ℝ)
        = (((sTnum (idx k) : ℤ):ℝ) * ((tempZ k : ℤ):ℝ) - 579600)
          / (2*10^8 * ((tempZ k : ℤ):ℝ)) := by
      rw [hmax_eq, lamdaF_eq_sTnum]
      field_simp
      ring
    have hS1 := sTnum_succ_cast (idx k)
    rw [hdiff, abs_div, abs_of_pos hdenpos, div_le_iff hdenpos]
    have habs : |((sTnum (idx k) : ℤ):ℝ) * ((tempZ k : ℤ):ℝ) - 579600|
        ≤ ((tempZ k : ℤ):ℝ) := by
      rw [hS1] at hb5R
      exact abs_le.mpr ⟨by nlinarith, by linarith⟩
    calc |((sTnum (idx k) : ℤ):ℝ) * ((tempZ k : ℤ):ℝ) - 579600|
        ≤ ((tempZ k : ℤ):ℝ) := habs
      _ = 5e-9 * (2*10^8 * ((tempZ k : ℤ):ℝ)) := by ring_nf
  rcases hor with hW | hL
  · -- the right straddling sample wins: maximum at idx k + 1
    have hq16W : pArg ≤ 16 * dArg (idx k + 1) k := by
      have hs : sTnum (idx k) ≤ sTnum (idx k + 1) := by
        unfold sTnum
        omega
      have hd : dArg (idx k) k ≤ dArg (idx k + 1) k :=
        mul_le_mul_of_nonneg_left hs (mul_pos HCD_pos (tempZ_pos k)).le
      linarith
    have hcross := planck_cross (idx k + 1) (idx k) k hq16W hW
    have incFull : ∀ a b : ℕ, a < b → b ≤ idx k + 1 →
        planck (lamdaF a) ((tempZ k : ℤ):ℝ) < planck (lamdaF b) ((tempZ k : ℤ):ℝ) := by
      intro a b hab hbm
      rcases Nat.lt_or_ge b (idx k + 1) with hbi | hbi
      · exact inc a b hab (by omega)
      · have hbeq : b = idx k + 1 := by omega
        subst hbeq
        rcases Nat.lt_or_ge a (idx k) with hai | hai
        · exact lt_trans (inc a (idx k) hai (le_refl _)) hcross
        · have haeq : a = idx k := by omega
          subst haeq
          exact hcross
    have m397 : idx k + 1 ≤ 397 := by omega
    refine ⟨idx k + 1, m397, incFull, fun a b ham hab _ => dec a b ham hab, ?_, hlocR⟩
    intro m' hm' hmax'
    by_contra hne
    rcases Nat.lt_or_ge m' (idx k + 1) with hlt | hge
    · exact absurd (hmax' (idx k + 1) m397)
        (not_le.mpr (incFull m' (idx k + 1) hlt (le_refl _)))
    · have hgt : idx k + 1 < m' := by omega
      exact absurd (hmax' (idx k + 1) m397)
        (not_le.mpr (dec (idx k + 1) m' (le_refl _) hgt))
  · -- the left straddling sample wins: maximum at idx k
    have hcross := planck_cross (idx k) (idx k + 1) k hb8 hL
    have decFull : ∀ a b : ℕ, idx k ≤ a → a < b →
        planck (lamdaF b) ((tempZ k : ℤ):ℝ) < planck (lamdaF a) ((tempZ k : ℤ):ℝ) := by
      intro a b ha hab
      rcases Nat.lt_or_ge a (idx k + 1) with hai | hai
      · have haeq : a = idx k := by omega
        subst haeq
        rcases Nat.lt_or_ge (idx k + 1) b with hbi | hbi
        · exact lt_trans (dec (idx k + 1) b (le_refl _) hbi) hcross
        · have hbeq : b = idx k + 1 := by omega
          subst hbeq
          exact hcross
      · exact dec a b hai hab
    have m397 : idx k ≤ 397 := by omega
    refine ⟨idx k, m397, fun a b hab hbm => inc a b hab hbm,
      fun a b ham hab _ => decFull a b ham hab, ?_, hlocL⟩
    intro m' hm' hmax'
    by_contra hne
    rcases Nat.lt_or_ge m' (idx k) with hlt | hge
    · exact absurd (hmax' (idx k) m397)
        (not_le.mpr (inc m' (idx k) hlt (le_refl _)))
    · have hgt : idx k < m' := by omega
      exact absurd (hmax' (idx k) m397)
        (not_le.mpr (decFull (idx k) m' (le_refl _) hgt))

/-- Witness for C3 at the default slider temperature 3000. -/
theorem planck_unimodal_on_grid_witness :
    ∃ m : ℕ, m ≤ 397 ∧
      (∀ a b : ℕ, a < b → b ≤ m →
        planck (lamdaF a) ((3000 : ℤ) : ℝ) < planck (lamdaF b) ((3000 : ℤ) : ℝ)) ∧
      (∀ a b : ℕ, m ≤ a → a < b → b ≤ 397 →
        planck (lamdaF b) ((3000 : ℤ) : ℝ) < planck (lamdaF a) ((3000 : ℤ) : ℝ)) ∧
      (∀ m' : ℕ, m' ≤ 397 →
        (∀ j : ℕ, j ≤ 397 →
          planck (lamdaF j) ((3000 : ℤ) : ℝ) ≤ planck (lamdaF m') ((3000 : ℤ) : ℝ)) →
        m' = m) ∧
      |lamdaF m - maxlamda ((3000 : ℤ) : ℝ)| ≤ 5e-9 :=
  planck_unimodal_on_grid 3000 ⟨9, by norm_num [tempSlider], by norm_num [tempSlider]⟩
